import Mathlib

/-!
# go-gitlint, package `internal/commits`

A shallow embedding of `src/internal/commits/commits.go` and a verification of
its specification.

* Go strings are finite byte sequences: `GoString := List UInt8`.
* The standard-library functions the package calls (`strings.Split`,
  `strings.Join`, `fmt.Sprintf` with `%s` verbs) are modelled after their Go
  implementations, in the namespace `strings` and inline in `pretty.String`.
* Side effects (the repository, the byte sink) are modelled by explicit state
  passing over a world type `W`; a Go panic is the outcome `Outcome.panic`.
-/

/-- A Go string: a finite sequence of bytes. -/
abbrev GoString := List UInt8

/-- The bytes of a string literal of the source (all literals there are ASCII). -/
def bytes (s : String) : GoString := s.toList.map (fun c => c.toNat.toUInt8)

namespace strings

/-- Go `strings.HasPrefix(s, p)`: does `s` begin with `p`. -/
def HasPrefix : GoString → GoString → Bool
  | _, [] => true
  | [], _ :: _ => false
  | a :: s, b :: p => a == b && HasPrefix s p

/-- Go `strings.Index(s, substr)`: the offset of the first occurrence of
`substr` in `s`; `none` stands for Go's `-1`. -/
def Index (s substr : GoString) : Option Nat :=
  if HasPrefix s substr then some 0 else
  match s with
  | [] => none
  | _ :: t => (Index t substr).map (· + 1)

/-- The generic loop of Go `strings.Count`:
`for { i := Index(s, substr); if i == -1 { return n }; n++; s = s[i+len(substr):] }`.
The first argument bounds the number of iterations. -/
def countLoop (substr : GoString) : Nat → GoString → Nat
  | 0, _ => 0
  | fuel + 1, s =>
    match Index s substr with
    | none => 0
    | some i => 1 + countLoop substr fuel (s.drop (i + substr.length))

/-- Go `strings.Count(s, substr)` for a non-empty `substr`: the number of
non-overlapping occurrences. Every iteration of the loop consumes at least one
byte of `s`, so `len(s)` iterations are enough. (The special case of Go for the
empty `substr`, which counts runes, is not used by this package.) -/
def Count (s substr : GoString) : Nat := countLoop substr s.length s

/-- The loop of Go `strings.genSplit` with `sepSave = 0`:
`for i < n { m := Index(s, sep); if m < 0 { break }; a[i] = s[:m]; s = s[m+len(sep):]; i++ }; a[i] = s`,
the first argument being the number `n - i` of iterations left. -/
def splitLoop (sep : GoString) : Nat → GoString → List GoString
  | 0, s => [s]
  | k + 1, s =>
    match Index s sep with
    | none => [s]
    | some m => s.take m :: splitLoop sep k (s.drop (m + sep.length))

/-- Go `strings.Split(s, sep)`, that is `genSplit(s, sep, 0, -1)`, for a
non-empty `sep`: `n = Count(s, sep) + 1`, capped at `len(s) + 1`, then the loop
runs at most `n - 1` times. (For the empty `sep` Go explodes `s` into UTF-8
sequences; this package only passes the two-byte separator.) -/
def Split (s sep : GoString) : List GoString :=
  let n := Count s sep + 1
  let n := if n > s.length + 1 then s.length + 1 else n
  splitLoop sep (n - 1) s

/-- Go `strings.Join(elems, sep)`. -/
def Join : List GoString → GoString → GoString
  | [], _ => []
  | [e], _ => e
  | e :: es, sep => e ++ (es.map (fun s => sep ++ s)).flatten

end strings

namespace commits

/-- The separator literal of the source: two newline bytes. -/
def sepNN : GoString := bytes "\n\n"

/-- The source's `Commit`: data for a single git commit. -/
structure Commit where
  hash : GoString
  message : GoString
deriving DecidableEq, Repr

/-- The source's `(c *Commit) Hash`: the commit's ID. -/
def Commit.Hash (c : Commit) : GoString := c.hash

/-- The source's `(c *Commit) Subject`: `strings.Split(c.message, "\n\n")[0]`.
The slice returned by `Split` is never empty (`Split_ne_nil`), so the index
expression never goes out of range and the default below is never taken. -/
def Commit.Subject (c : Commit) : GoString :=
  (strings.Split c.message sepNN).headD []

/-- The source's `(c *Commit) Body`. -/
def Commit.Body (c : Commit) : GoString :=
  let body : GoString := []
  let parts := strings.Split c.message sepNN
  if parts.length > 1 then strings.Join (parts.drop 1) [] else body

/-- The source's `(p *pretty) String`:
`fmt.Sprintf("hash: %s subject=%s body=%s", Hash(), Subject(), Body())`;
the verb `%s` inserts the bytes of a string argument unchanged. -/
def pretty.String (c : Commit) : GoString :=
  bytes "hash: " ++ c.Hash ++ bytes " subject=" ++ c.Subject ++ bytes " body=" ++ c.Body

/-- A Go `error` value. -/
structure GoError where
  msg : String
deriving DecidableEq, Repr

/-- How a call ends: it returns a value, or it panics with an error value. -/
inductive Outcome (α : Type) where
  | ok (a : α)
  | panic (err : GoError)
deriving DecidableEq, Repr

/-- The source's `Commits`, `func() []*Commit`: a call may read and change the
world `W` (repository, sink) and either returns the slice or panics. The
pointers of the slice are taken to be non-nil. -/
abbrev Commits (W : Type) := W → Outcome (List Commit) × W

/-- Go `io.Writer`: `Write(p []byte) (n int, err error)`, acting on the world. -/
structure Writer (W : Type) where
  Write : GoString → W → (Nat × Option GoError) × W

/-- The loop of the source's `Printed`: for each commit one call of
`writer.Write` with the bytes of `fmt.Sprintf("%s%s", &pretty{c}, sep)`; the first
write error ends the loop (the source panics with it). -/
def printLoop {W : Type} (writer : Writer W) (sep : GoString) :
    List Commit → W → Option GoError × W
  | [], w => (none, w)
  | c :: cs, w =>
    match writer.Write (pretty.String c ++ sep) w with
    | ((_, some err), w1) => (some err, w1)
    | ((_, none), w1) => printLoop writer sep cs w1

/-- The source's `Printed`: prints the commits to the writer. A panic of the
wrapped `commits()` propagates. -/
def Printed {W : Type} (commits : Commits W) (writer : Writer W) (sep : GoString) :
    Commits W := fun w =>
  match commits w with
  | (Outcome.panic err, w1) => (Outcome.panic err, w1)
  | (Outcome.ok input, w1) =>
    match printLoop writer sep input w1 with
    | (some err, w2) => (Outcome.panic err, w2)
    | (none, w2) => (Outcome.ok input, w2)

/-- go-git `plumbing.Hash`, `[20]byte`. -/
abbrev Hash := { l : List UInt8 // l.length = 20 }

/-- Go `encoding/hex`: the digit table `"0123456789abcdef"`. -/
def hextable : GoString := bytes "0123456789abcdef"

/-- Go `hex.EncodeToString`: two digits per byte, `hextable[v>>4]` then
`hextable[v&0x0f]`. -/
def hexEncode (src : List UInt8) : GoString :=
  (src.map (fun v => [hextable.getD (v.toNat / 16) 0, hextable.getD (v.toNat % 16) 0])).flatten

/-- go-git `(h Hash) String`: `hex.EncodeToString(h[:])`. -/
def Hash.String (h : Hash) : GoString := hexEncode h.val

/-- go-git `*object.Commit`, the two fields the source reads. -/
structure RawCommit where
  Hash : Hash
  Message : GoString

/-- go-git `*plumbing.Reference`, with the value of its method `Hash()`. -/
structure Reference where
  Hash : Hash

/-- go-git `git.LogOptions`, the field the source sets. -/
structure LogOptions where
  From : Hash

/-- go-git `storer.ErrStop`, the error with which a callback stops an iteration. -/
def ErrStop : GoError := ⟨"stop"⟩

/-- go-git `object.CommitIter` by what it delivers to successive `Next()` calls:
the raw commits `commits`, then `io.EOF` when `err = none` and the error
otherwise. -/
structure CommitIter where
  commits : List RawCommit
  err : Option GoError

/-- go-git `ForEach` over the commits still to deliver:
`for { c, err := Next(); if err == io.EOF { break }; if err != nil { return err };
err = cb(c); if err == storer.ErrStop { break }; if err != nil { return err } }; return nil`.
The callback acts on the state `A` it closes over. -/
def forEachLoop {A : Type} (cb : RawCommit → A → Option GoError × A) (last : Option GoError) :
    List RawCommit → A → Option GoError × A
  | [], a => (last, a)
  | c :: cs, a =>
    match cb c a with
    | (none, a1) => forEachLoop cb last cs a1
    | (some e, a1) => if e = ErrStop then (none, a1) else (some e, a1)

/-- go-git `(iter) ForEach(cb)`. -/
def CommitIter.ForEach {A : Type} (iter : CommitIter) (cb : RawCommit → A → Option GoError × A)
    (a : A) : Option GoError × A :=
  forEachLoop cb iter.err iter.commits a

/-- go-git `*git.Repository`, the two methods the source calls, acting on the
world: `Head() (*plumbing.Reference, error)` and
`Log(o *LogOptions) (object.CommitIter, error)`. -/
structure Repository (W : Type) where
  Head : W → Except GoError Reference × W
  Log : LogOptions → W → Except GoError CommitIter × W

/-- The type `repo.Repo` the source imports, `func() *git.Repository`: a call
returns a repository handle. -/
abbrev Repo (W : Type) := W → Repository W × W

/-- The source's `In`: the commits in the repo. -/
def In {W : Type} (repository : Repo W) : Commits W := fun w =>
  match repository w with
  | (r, w1) =>
    match r.Head w1 with
    | (Except.error err, w2) => (Outcome.panic err, w2)
    | (Except.ok ref, w2) =>
      match r.Log ⟨ref.Hash⟩ w2 with
      | (Except.error err, w3) => (Outcome.panic err, w3)
      | (Except.ok iter, w3) =>
        let commits : List Commit := []
        match iter.ForEach
            (fun c commits => (none, commits ++ [(⟨c.Hash.String, c.Message⟩ : Commit)])) commits with
        | (_, commits) => (Outcome.ok commits, w3)

/-- The sink that records every buffer it is given, in order, and accepts all. -/
def recordingWriter : Writer (List GoString) :=
  ⟨fun p w => ((p.length, none), w ++ [p])⟩

/-- The sink that is a byte buffer: a write appends its bytes and succeeds
(Go `bytes.Buffer`). -/
def bufferWriter : Writer GoString :=
  ⟨fun p w => ((p.length, none), w ++ p)⟩

/-- The buffer one iteration of `Printed` hands to `Write`. -/
def record (sep : GoString) (c : Commit) : GoString := pretty.String c ++ sep

/-- The world after the writes of `bufs`, in order, whatever each reports. -/
def written {W : Type} (writer : Writer W) (bufs : List GoString) (w : W) : W :=
  bufs.foldl (fun w p => (writer.Write p w).2) w

/-! ### Concrete sinks and repositories for the examples -/

/-- A sink that records every buffer it is given and reports an error from its
second write on. -/
def secondWriteFails : Writer (List GoString) :=
  ⟨fun p log => ((if log.length < 1 then p.length else 0,
      if log.length < 1 then none else some ⟨"short write"⟩), log ++ [p])⟩

/-- Two commit identifiers. -/
def hashA : Hash := ⟨List.replicate 20 0x1f, rfl⟩

/-- The second of the two commit identifiers. -/
def hashB : Hash := ⟨List.replicate 20 0xa0, rfl⟩

/-- A repository without a head: `Head()` fails. The world is the list of the
calls made so far. -/
def headless : Repo (List String) := fun calls =>
  (⟨fun calls => (Except.error ⟨"reference not found"⟩, calls ++ ["Head"]),
    fun _ calls => (Except.ok ⟨[], none⟩, calls ++ ["Log"])⟩,
   calls ++ ["repository"])

/-- A repository whose log delivers two commits and then ends. -/
def twoCommits : Repo (List String) := fun calls =>
  (⟨fun calls => (Except.ok ⟨hashA⟩, calls ++ ["Head"]),
    fun _ calls =>
      (Except.ok ⟨[⟨hashA, bytes "m1"⟩, ⟨hashB, bytes "t\n\nb"⟩], none⟩, calls ++ ["Log"])⟩,
   calls ++ ["repository"])

/-- A repository whose log delivers one commit and then reports an error. -/
def brokenLog : Repo (List String) := fun calls =>
  (⟨fun calls => (Except.ok ⟨hashA⟩, calls ++ ["Head"]),
    fun _ calls =>
      (Except.ok ⟨[⟨hashA, bytes "m1"⟩], some ⟨"object not found"⟩⟩, calls ++ ["Log"])⟩,
   calls ++ ["repository"])

/-- A sink that accepts every write and notes the call in the list of calls. -/
def callWriter : Writer (List String) :=
  ⟨fun p calls => ((p.length, none), calls ++ ["Write"])⟩

/-- Layers of `Printed` stacked over a base enumerator, the outermost first:
`Printed(Printed(... Printed(e, w_n, sep_n) ..., w_2, sep_2), w_1, sep_1)`. -/
def stacked {W : Type} (e : Commits W) : List (Writer W × GoString) → Commits W
  | [] => e
  | (writer, sep) :: layers => Printed (stacked e layers) writer sep

end commits

/-! ## The string functions -/

namespace strings

theorem HasPrefix_iff (s p : GoString) : HasPrefix s p = true ↔ p <+: s := by
  induction p generalizing s with
  | nil => simp [HasPrefix]
  | cons b p ih =>
    cases s with
    | nil => simp [HasPrefix]
    | cons a s =>
      simp only [HasPrefix, Bool.and_eq_true, beq_iff_eq, ih, List.cons_prefix_cons]
      constructor
      · rintro ⟨h1, h2⟩; exact ⟨h1.symm, h2⟩
      · rintro ⟨h1, h2⟩; exact ⟨h1.symm, h2⟩

theorem Index_unfold_cons (a : UInt8) (t sub : GoString) :
    Index (a :: t) sub
      = if HasPrefix (a :: t) sub then some 0 else (Index t sub).map (· + 1) := by
  rw [Index]

theorem Index_unfold_nil (sub : GoString) :
    Index [] sub = if HasPrefix [] sub then some 0 else none := by
  rw [Index]

/-- `Index` returns an offset at which `sub` occurs, and no smaller offset has an
occurrence. -/
theorem Index_some {s sub : GoString} {m : Nat} (h : Index s sub = some m) :
    sub <+: s.drop m ∧ ∀ i, i < m → ¬ sub <+: s.drop i := by
  induction s generalizing m with
  | nil =>
    rw [Index_unfold_nil] at h
    split at h
    · rename_i hp
      cases h
      exact ⟨(HasPrefix_iff _ _).1 hp, fun i hi => absurd hi (Nat.not_lt_zero i)⟩
    · cases h
  | cons a t ih =>
    rw [Index_unfold_cons] at h
    split at h
    · rename_i hp
      cases h
      exact ⟨(HasPrefix_iff _ _).1 hp, fun i hi => absurd hi (Nat.not_lt_zero i)⟩
    · rename_i hp
      cases ht : Index t sub with
      | none => rw [ht] at h; cases h
      | some m' =>
        rw [ht] at h
        cases h
        obtain ⟨h1, h2⟩ := ih ht
        refine ⟨by simpa using h1, ?_⟩
        intro i hi
        cases i with
        | zero => simpa [← HasPrefix_iff] using hp
        | succ j =>
          have hj : j < m' := by simpa using hi
          simpa using h2 j hj

/-- When `Index` returns `-1`, `sub` occurs at no offset. -/
theorem Index_none {s sub : GoString} (h : Index s sub = none) :
    ∀ i, ¬ sub <+: s.drop i := by
  induction s with
  | nil =>
    rw [Index_unfold_nil] at h
    split at h
    · cases h
    · rename_i hp
      intro i hpre
      exact hp ((HasPrefix_iff _ _).2 (by simpa using hpre))
  | cons a t ih =>
    rw [Index_unfold_cons] at h
    split at h
    · cases h
    · rename_i hp
      cases ht : Index t sub with
      | some m' => rw [ht] at h; cases h
      | none =>
        intro i
        cases i with
        | zero => simpa [← HasPrefix_iff] using hp
        | succ j => simpa using ih ht j

theorem occurs_iff_drop (s sub : GoString) : sub <:+: s ↔ ∃ i, sub <+: s.drop i := by
  constructor
  · rintro ⟨a, r, h⟩
    refine ⟨a.length, r, ?_⟩
    rw [← h]
    simp
  · rintro ⟨i, r, h⟩
    refine ⟨s.take i, r, ?_⟩
    rw [List.append_assoc, h, List.take_append_drop]

theorem Index_eq_none_iff (s sub : GoString) : Index s sub = none ↔ ¬ sub <:+: s := by
  rw [occurs_iff_drop]
  constructor
  · intro h ⟨i, hi⟩
    exact Index_none h i hi
  · intro h
    cases hs : Index s sub with
    | none => rfl
    | some m => exact absurd ⟨m, (Index_some hs).1⟩ h

theorem Index_some_split {s sub : GoString} {m : Nat} (h : Index s sub = some m) :
    s = s.take m ++ sub ++ s.drop (m + sub.length) := by
  obtain ⟨r, hr⟩ := (Index_some h).1
  have : s.drop (m + sub.length) = r := by
    rw [← List.drop_drop, ← hr]
    simp
  rw [this, List.append_assoc, hr, List.take_append_drop]

theorem Index_some_length {s sub : GoString} {m : Nat} (h : Index s sub = some m) :
    m + sub.length ≤ s.length := by
  obtain ⟨⟨r, hr⟩, hmin⟩ := Index_some h
  have h1 := congrArg List.length hr
  simp at h1
  by_cases hm : m ≤ s.length
  · omega
  · exfalso
    have h0 : sub = [] := List.length_eq_zero.1 (by omega)
    refine hmin s.length (by omega) ?_
    simp [h0]


theorem Index_nil_of_ne {sub : GoString} (h : sub ≠ []) : Index [] sub = none := by
  rw [Index_eq_none_iff]
  rintro ⟨a, r, hr⟩
  apply h
  have h1 := congrArg List.length hr
  rw [List.length_append, List.length_append, List.length_nil] at h1
  exact List.length_eq_zero.1 (by omega)

/-- What is left of `s` after an occurrence of a non-empty `sub` is shorter. -/
theorem length_drop_lt {s sub : GoString} {m : Nat} (hsub : sub ≠ [])
    (h : Index s sub = some m) : (s.drop (m + sub.length)).length < s.length := by
  have h1 := Index_some_length h
  have h2 : 0 < sub.length := List.length_pos.2 hsub
  rw [List.length_drop]
  omega

/-- One more iteration than `len(s)` changes nothing in the loop of `Count`. -/
theorem countLoop_succ {sub : GoString} (hsub : sub ≠ []) (fuel : Nat) (s : GoString)
    (h : s.length ≤ fuel) : countLoop sub (fuel + 1) s = countLoop sub fuel s := by
  induction fuel generalizing s with
  | zero =>
    have hs : s = [] := List.length_eq_zero.1 (by omega)
    subst hs
    simp [countLoop, Index_nil_of_ne hsub]
  | succ f ih =>
    rw [countLoop, countLoop]
    cases hi : Index s sub with
    | none => rfl
    | some m =>
      have := length_drop_lt hsub hi
      simp only
      rw [ih _ (by omega)]

theorem countLoop_of_le {sub : GoString} (hsub : sub ≠ []) (s : GoString) (d : Nat) :
    countLoop sub (s.length + d) s = countLoop sub s.length s := by
  induction d with
  | zero => rfl
  | succ d ih => rw [← Nat.add_assoc, countLoop_succ hsub _ _ (by omega), ih]

/-- The loop of `Count`, one iteration unfolded. -/
theorem Count_unfold {sub : GoString} (hsub : sub ≠ []) (s : GoString) :
    Count s sub = match Index s sub with
      | none => 0
      | some m => 1 + Count (s.drop (m + sub.length)) sub := by
  cases hi : Index s sub with
  | none =>
    cases s with
    | nil => rfl
    | cons a t => simp [Count, countLoop, hi]
  | some m =>
    have hlt := length_drop_lt hsub hi
    cases s with
    | nil => simp at hlt
    | cons a t =>
      simp only [Count, List.length_cons, countLoop, hi]
      obtain ⟨d, hd⟩ : ∃ d, t.length = ((a :: t).drop (m + sub.length)).length + d :=
        ⟨t.length - ((a :: t).drop (m + sub.length)).length, by simp at hlt ⊢; omega⟩
      rw [hd, countLoop_of_le hsub]

theorem Count_le {sub : GoString} (hsub : sub ≠ []) (s : GoString) : Count s sub ≤ s.length := by
  generalize hn : s.length = n
  induction n using Nat.strong_induction_on generalizing s with
  | _ n ih =>
    subst hn
    cases hi : Index s sub with
    | none => rw [Count_unfold hsub, hi]; exact Nat.zero_le _
    | some m =>
      have hlt := length_drop_lt hsub hi
      have := ih _ hlt (s.drop (m + sub.length)) rfl
      rw [Count_unfold hsub, hi]
      show 1 + Count (s.drop (m + sub.length)) sub ≤ s.length
      omega

/-- The equation of `Split` for a non-empty separator: cut at the first
occurrence and split what follows it. -/
theorem Split_unfold {sep : GoString} (hsep : sep ≠ []) (s : GoString) :
    Split s sep = match Index s sep with
      | none => [s]
      | some m => s.take m :: Split (s.drop (m + sep.length)) sep := by
  have hcap : ∀ t : GoString,
      Split t sep = splitLoop sep (Count t sep) t := by
    intro t
    have := Count_le hsep t
    simp only [Split]
    rw [if_neg (by omega)]
    rfl
  rw [hcap, Count_unfold hsep]
  cases hi : Index s sep with
  | none =>
    simp only
    simp [splitLoop]
  | some m =>
    simp only
    rw [Nat.add_comm, splitLoop, hi, hcap]

theorem Split_ne_nil {sep : GoString} (hsep : sep ≠ []) (s : GoString) : Split s sep ≠ [] := by
  rw [Split_unfold hsep]
  cases Index s sep <;> simp


theorem Join_empty_sep (elems : List GoString) : Join elems [] = elems.flatten := by
  match elems with
  | [] => rfl
  | [e] => simp [Join]
  | e :: e2 :: es => simp [Join]

end strings

/-! ## Subject, body, printing and enumeration -/

namespace commits

open strings

theorem sepNN_eq : sepNN = [10, 10] := by decide

theorem sepNN_ne_nil : sepNN ≠ [] := by decide

theorem sepNN_length : sepNN.length = 2 := by decide

/-- `Subject` in terms of the first occurrence of the separator. -/
theorem Subject_eq (c : Commit) :
    c.Subject = match Index c.message sepNN with
      | none => c.message
      | some m => c.message.take m := by
  rw [Commit.Subject, Split_unfold sepNN_ne_nil]
  cases Index c.message sepNN <;> rfl

/-- `Body` in terms of the first occurrence of the separator. -/
theorem Body_eq (c : Commit) :
    c.Body = match Index c.message sepNN with
      | none => []
      | some m => (Split (c.message.drop (m + 2)) sepNN).flatten := by
  simp only [Commit.Body]
  rw [Split_unfold sepNN_ne_nil]
  cases hi : Index c.message sepNN with
  | none => simp
  | some m =>
    have hne := Split_ne_nil sepNN_ne_nil (c.message.drop (m + sepNN.length))
    have hlen : 0 < (Split (c.message.drop (m + sepNN.length)) sepNN).length :=
      List.length_pos.2 hne
    simp only [List.length_cons, List.drop_succ_cons, List.drop_zero]
    rw [if_pos (by omega), Join_empty_sep, sepNN_length]

/-- A paragraph without separator and without final newline, followed by a
separator: the first occurrence of the separator is right after the paragraph. -/
theorem Index_paragraph (p r : GoString) (h1 : ¬ sepNN <:+: p) (h2 : p.getLast? ≠ some 10) :
    Index (p ++ sepNN ++ r) sepNN = some p.length := by
  induction p with
  | nil =>
    rw [sepNN_eq]
    simp [Index, HasPrefix]
  | cons a p ih =>
    have h1' : ¬ sepNN <:+: p := fun h => h1 (h.trans (List.suffix_cons a p).isInfix)
    have h2' : p.getLast? ≠ some 10 := by
      cases p with
      | nil => simp
      | cons b q => simpa [List.getLast?_cons_cons] using h2
    have hp : HasPrefix (a :: p ++ sepNN ++ r) sepNN = false := by
      rw [sepNN_eq] at h1 ⊢
      cases p with
      | nil =>
        have : a ≠ 10 := by simpa using h2
        simp [HasPrefix, this]
      | cons b q =>
        by_cases hab : a = 10 ∧ b = 10
        · exfalso
          apply h1
          refine ⟨[], q, ?_⟩
          simp [hab.1, hab.2]
        · simp only [List.cons_append, HasPrefix, Bool.and_true]
          simpa using hab
    rw [List.cons_append, List.cons_append, Index_unfold_cons]
    rw [List.cons_append, List.cons_append] at hp
    rw [hp, ih h1' h2']
    rfl

/-- Splitting a message put together from paragraphs gives back the paragraphs. -/
theorem Split_paragraphs (p0 : GoString) (ps : List GoString)
    (h1 : ∀ p ∈ p0 :: ps, ¬ sepNN <:+: p)
    (h2 : ∀ p ∈ (p0 :: ps).dropLast, p.getLast? ≠ some 10) :
    Split (List.intercalate sepNN (p0 :: ps)) sepNN = p0 :: ps := by
  induction ps generalizing p0 with
  | nil =>
    have h0 : ¬ sepNN <:+: p0 := h1 p0 (List.mem_cons_self _ _)
    have : List.intercalate sepNN [p0] = p0 := by simp [List.intercalate]
    rw [this, Split_unfold sepNN_ne_nil, (Index_eq_none_iff _ _).2 h0]
  | cons p1 ps ih =>
    have h0 : ¬ sepNN <:+: p0 := h1 p0 (List.mem_cons_self _ _)
    have h0' : p0.getLast? ≠ some 10 := h2 p0 (by simp [List.dropLast])
    have hm : List.intercalate sepNN (p0 :: p1 :: ps)
        = p0 ++ sepNN ++ List.intercalate sepNN (p1 :: ps) := by
      simp [List.intercalate, List.intersperse]
    rw [hm, Split_unfold sepNN_ne_nil, Index_paragraph _ _ h0 h0']
    simp only
    rw [List.append_assoc, List.take_left, List.drop_append, List.drop_left, ih]
    · intro p hp
      exact h1 p (List.mem_cons_of_mem _ hp)
    · intro p hp
      exact h2 p (by
        rw [List.dropLast_cons₂]
        exact List.mem_cons_of_mem _ hp)

/-- C1: for every commit, the subject contains no occurrence of the separator
of two newlines. -/
theorem subject_no_separator (c : Commit) : ¬ sepNN <:+: c.Subject := by
  rw [Subject_eq]
  cases hi : Index c.message sepNN with
  | none => exact (Index_eq_none_iff _ _).1 hi
  | some m =>
    rintro ⟨a, r, har⟩
    have hlen := congrArg List.length har
    rw [List.length_append, List.length_append, sepNN_length, List.length_take] at hlen
    refine (Index_some hi).2 a.length (by omega) ⟨r ++ c.message.drop m, ?_⟩
    have hs : c.message = a ++ (sepNN ++ (r ++ c.message.drop m)) := by
      rw [← List.append_assoc, ← List.append_assoc, har, List.take_append_drop]
    rw [hs, List.drop_left]
    rw [← hs]


/-- C2: when the message contains the separator, the subject is the portion of
the message before the first separator: the message is the subject, the
separator and a rest, and no occurrence of the separator in the message starts
at an offset smaller than the length of the subject. -/
theorem subject_before_first_separator (c : Commit) (h : sepNN <:+: c.message) :
    (∃ r, c.message = c.Subject ++ sepNN ++ r) ∧
    ∀ a r, c.message = a ++ sepNN ++ r → c.Subject.length ≤ a.length := by
  cases hi : Index c.message sepNN with
  | none => exact absurd h ((Index_eq_none_iff _ _).1 hi)
  | some m =>
    have hS : c.Subject = c.message.take m := by rw [Subject_eq, hi]
    have hm := Index_some_length hi
    refine ⟨⟨c.message.drop (m + sepNN.length), ?_⟩, ?_⟩
    · rw [hS]
      exact Index_some_split hi
    · intro a r har
      rw [hS, List.length_take]
      by_contra hlt
      refine (Index_some hi).2 a.length (by omega) ⟨r, ?_⟩
      rw [har, List.append_assoc, List.drop_left]

theorem subject_before_first_separator_witness :
    sepNN <:+: bytes "t\n\nb\n\nc" ∧
    ((∃ r, bytes "t\n\nb\n\nc" = (Commit.mk (bytes "abc123") (bytes "t\n\nb\n\nc")).Subject ++ sepNN ++ r) ∧
     ∀ a r, bytes "t\n\nb\n\nc" = a ++ sepNN ++ r →
       (Commit.mk (bytes "abc123") (bytes "t\n\nb\n\nc")).Subject.length ≤ a.length) :=
  ⟨by decide, subject_before_first_separator ⟨bytes "abc123", bytes "t\n\nb\n\nc"⟩ (by decide)⟩

/-- C3: when the message contains no separator (the empty message included),
the subject is the whole message and the body is the empty string. -/
theorem no_separator_subject_body (c : Commit) (h : ¬ sepNN <:+: c.message) :
    c.Subject = c.message ∧ c.Body = [] := by
  have hi := (Index_eq_none_iff _ _).2 h
  rw [Subject_eq, Body_eq, hi]
  exact ⟨rfl, rfl⟩

theorem no_separator_subject_body_witness :
    ¬ sepNN <:+: ([] : GoString) ∧
    ((Commit.mk (bytes "abc123") []).Subject = [] ∧ (Commit.mk (bytes "abc123") []).Body = []) :=
  ⟨by decide, no_separator_subject_body ⟨bytes "abc123", []⟩ (by decide)⟩

/-- C4: for paragraphs p0, p1, ..., pn with n ≥ 1, none containing the
separator and none but the last ending with a newline, the commit whose
message is the paragraphs joined by the separator has subject p0 and body
p1 ++ ... ++ pn, joined with nothing in between. -/
theorem paragraphs_subject_body (hash p0 : GoString) (ps : List GoString)
    (hn : 1 ≤ ps.length)
    (h1 : ∀ p ∈ p0 :: ps, ¬ sepNN <:+: p)
    (h2 : ∀ p ∈ (p0 :: ps).dropLast, p.getLast? ≠ some 10) :
    (Commit.mk hash (List.intercalate sepNN (p0 :: ps))).Subject = p0 ∧
    (Commit.mk hash (List.intercalate sepNN (p0 :: ps))).Body = ps.flatten := by
  have hS := Split_paragraphs p0 ps h1 h2
  constructor
  · rw [Commit.Subject]
    simp only
    rw [hS]
    rfl
  · simp only [Commit.Body]
    rw [hS, List.length_cons, if_pos (by omega)]
    simp [Join_empty_sep]

theorem paragraphs_subject_body_witness :
    (1 ≤ [bytes "First paragraph.", bytes "Second paragraph."].length ∧
     (∀ p ∈ [bytes "Refactor", bytes "First paragraph.", bytes "Second paragraph."],
        ¬ sepNN <:+: p) ∧
     (∀ p ∈ [bytes "Refactor", bytes "First paragraph.", bytes "Second paragraph."].dropLast,
        p.getLast? ≠ some 10)) ∧
    (Commit.mk (bytes "abc123") (bytes "Refactor\n\nFirst paragraph.\n\nSecond paragraph.")).Subject
      = bytes "Refactor" ∧
    (Commit.mk (bytes "abc123") (bytes "Refactor\n\nFirst paragraph.\n\nSecond paragraph.")).Body
      = bytes "First paragraph.Second paragraph." :=
  ⟨⟨by decide, by decide, by decide⟩,
   paragraphs_subject_body (bytes "abc123") (bytes "Refactor")
     [bytes "First paragraph.", bytes "Second paragraph."] (by decide) (by decide) (by decide)⟩


theorem written_nil {W : Type} (writer : Writer W) (w : W) : written writer [] w = w := rfl

theorem written_cons {W : Type} (writer : Writer W) (p : GoString) (ps : List GoString) (w : W) :
    written writer (p :: ps) w = written writer ps (writer.Write p w).2 := rfl

/-- While the sink accepts, the loop of `Printed` goes on: after accepted
writes for `pre` it is at the world these writes built. -/
theorem printLoop_accepted {W : Type} (writer : Writer W) (sep : GoString)
    (pre rest : List Commit) (w : W)
    (hpre : ∀ j (hj : j < pre.length),
      (writer.Write (record sep (pre.get ⟨j, hj⟩))
        (written writer ((pre.take j).map (record sep)) w)).1.2 = none) :
    printLoop writer sep (pre ++ rest) w
      = printLoop writer sep rest (written writer (pre.map (record sep)) w) := by
  induction pre generalizing w with
  | nil => rfl
  | cons c pre ih =>
    have h0 := hpre 0 (Nat.succ_pos _)
    simp only [List.get_eq_getElem, List.getElem_cons_zero, List.take_zero, List.map_nil,
      written_nil, record] at h0
    rw [List.cons_append, printLoop]
    rcases hw : writer.Write (pretty.String c ++ sep) w with ⟨⟨n, e⟩, w'⟩
    rw [hw] at h0
    simp only at h0
    subst h0
    simp only [List.map_cons, written_cons, record, hw]
    apply ih
    intro j hj
    have := hpre (j + 1) (Nat.succ_lt_succ hj)
    simpa [written_cons, record, hw] using this

/-- With a sink that accepts every write the loop of `Printed` writes one
record per commit, in order, and reports no error. -/
theorem printLoop_accepting {W : Type} (writer : Writer W) (sep : GoString)
    (hacc : ∀ p w, (writer.Write p w).1.2 = none) (S : List Commit) (w : W) :
    printLoop writer sep S w = (none, written writer (S.map (record sep)) w) := by
  have := printLoop_accepted writer sep S [] w (fun j hj => hacc _ _)
  rw [List.append_nil] at this
  rw [this]
  rfl

theorem written_recording (bufs log : List GoString) :
    written recordingWriter bufs log = log ++ bufs := by
  induction bufs generalizing log with
  | nil => simp [written_nil]
  | cons p ps ih => rw [written_cons, ih]; simp [recordingWriter]

theorem written_buffer (bufs : List GoString) (content : GoString) :
    written bufferWriter bufs content = content ++ bufs.flatten := by
  induction bufs generalizing content with
  | nil => simp [written_nil]
  | cons p ps ih => rw [written_cons, ih]; simp [bufferWriter]

/-- The callback of `In` appends one `Commit` per delivered raw commit. -/
theorem forEachLoop_append (last : Option GoError) (raws : List RawCommit) (acc : List Commit) :
    forEachLoop (fun c commits => (none, commits ++ [(⟨c.Hash.String, c.Message⟩ : Commit)]))
        last raws acc
      = (last, acc ++ raws.map (fun c => (⟨c.Hash.String, c.Message⟩ : Commit))) := by
  induction raws generalizing acc with
  | nil => simp [forEachLoop]
  | cons c cs ih => simp [forEachLoop, ih]

/-- C5: with an underlying enumerator yielding S and a sink that accepts every
write, one call of the enumerator built by `Printed` issues exactly the writes
of the records rendering(c) ++ sep of the commits of S, one write per commit
and in order; a recording sink holds exactly these buffers and a byte buffer
gains exactly their concatenation. -/
theorem printed_writes {W : Type} (commits : Commits W) (writer : Writer W) (sep : GoString)
    (w w1 : W) (S : List Commit)
    (hS : commits w = (Outcome.ok S, w1))
    (hacc : ∀ p w, (writer.Write p w).1.2 = none) :
    Printed commits writer sep w
        = (Outcome.ok S, written writer (S.map (fun c => pretty.String c ++ sep)) w1) ∧
    (Printed (fun log => (Outcome.ok S, log)) recordingWriter sep []).2
        = S.map (fun c => pretty.String c ++ sep) ∧
    (Printed (fun content => (Outcome.ok S, content)) bufferWriter sep []).2
        = (S.map (fun c => pretty.String c ++ sep)).flatten := by
  have hrec : ∀ p w, (recordingWriter.Write p w).1.2 = none := fun _ _ => rfl
  have hbuf : ∀ p w, (bufferWriter.Write p w).1.2 = none := fun _ _ => rfl
  refine ⟨?_, ?_, ?_⟩
  · simp only [Printed, hS, printLoop_accepting writer sep hacc]
    rfl
  · simp only [Printed, printLoop_accepting recordingWriter sep hrec, written_recording]
    rfl
  · simp only [Printed, printLoop_accepting bufferWriter sep hbuf, written_buffer]
    rfl

theorem printed_writes_witness :
    ((fun content => (Outcome.ok [⟨bytes "h1", bytes "m1"⟩, ⟨bytes "h2", bytes "m2"⟩], content))
        : Commits GoString) []
      = (Outcome.ok [⟨bytes "h1", bytes "m1"⟩, ⟨bytes "h2", bytes "m2"⟩], []) ∧
    (∀ p w, (bufferWriter.Write p w).1.2 = none) ∧
    (Printed (fun content =>
        (Outcome.ok [⟨bytes "h1", bytes "m1"⟩, ⟨bytes "h2", bytes "m2"⟩], content))
      bufferWriter (bytes ";") []).2
      = bytes "hash: h1 subject=m1 body=;hash: h2 subject=m2 body=;" :=
  ⟨rfl, fun _ _ => rfl,
   (printed_writes (fun content =>
        (Outcome.ok [⟨bytes "h1", bytes "m1"⟩, ⟨bytes "h2", bytes "m2"⟩], content))
      bufferWriter (bytes ";") [] [] [⟨bytes "h1", bytes "m1"⟩, ⟨bytes "h2", bytes "m2"⟩]
      rfl (fun _ _ => rfl)).2.2⟩

/-- C6: with a sink that accepts every write, the enumerator built by `Printed`
returns exactly the sequence the underlying enumerator returned: the same
commits (hash and message) in the same order. -/
theorem printed_returns_input {W : Type} (commits : Commits W) (writer : Writer W)
    (sep : GoString) (w : W) (S : List Commit)
    (hS : (commits w).1 = Outcome.ok S)
    (hacc : ∀ p w, (writer.Write p w).1.2 = none) :
    (Printed commits writer sep w).1 = Outcome.ok S := by
  rcases hc : commits w with ⟨o, w1⟩
  rw [hc] at hS
  simp only at hS
  subst hS
  simp only [Printed, hc, printLoop_accepting writer sep hacc]

theorem printed_returns_input_witness :
    (((fun log => (Outcome.ok [⟨bytes "h1", bytes "m1"⟩, ⟨bytes "h2", bytes "m2"⟩], log))
        : Commits (List GoString)) []).1
      = Outcome.ok [⟨bytes "h1", bytes "m1"⟩, ⟨bytes "h2", bytes "m2"⟩] ∧
    (∀ p w, (recordingWriter.Write p w).1.2 = none) ∧
    (Printed (fun log => (Outcome.ok [⟨bytes "h1", bytes "m1"⟩, ⟨bytes "h2", bytes "m2"⟩], log))
      recordingWriter (bytes ";") []).1
      = Outcome.ok [⟨bytes "h1", bytes "m1"⟩, ⟨bytes "h2", bytes "m2"⟩] :=
  ⟨rfl, fun _ _ => rfl,
   printed_returns_input (fun log =>
        (Outcome.ok [⟨bytes "h1", bytes "m1"⟩, ⟨bytes "h2", bytes "m2"⟩], log))
      recordingWriter (bytes ";") [] [⟨bytes "h1", bytes "m1"⟩, ⟨bytes "h2", bytes "m2"⟩]
      rfl (fun _ _ => rfl)⟩

/-- C7: printing a sequence of one commit into an empty byte buffer leaves in
it "hash: " ++ h ++ " subject=" ++ subject ++ " body=" ++ body ++ sep, for every
hash h, message and separator, the three fields inserted as they are. -/
theorem printed_one_commit (h m sep : GoString) :
    (Printed (fun content => (Outcome.ok [⟨h, m⟩], content)) bufferWriter sep []).2
      = bytes "hash: " ++ h ++ bytes " subject=" ++ (Commit.mk h m).Subject
          ++ bytes " body=" ++ (Commit.mk h m).Body ++ sep := by
  simp [Printed, printLoop, bufferWriter, pretty.String, Commit.Hash]


/-- C8: when the sink accepted the writes for the commits before the k-th and
reports an error on the write for the k-th, the call of the printing enumerator
panics with that error and returns no sequence; the world it leaves is the one
of that single failed write made after the k-1 earlier writes, so the k-th
write was attempted once and nothing was written for a later commit. -/
theorem printed_write_error {W : Type} (commits : Commits W) (writer : Writer W)
    (sep : GoString) (w w1 w2 : W) (pre post : List Commit) (c : Commit) (n : Nat)
    (err : GoError)
    (hS : commits w = (Outcome.ok (pre ++ c :: post), w1))
    (hpre : ∀ j (hj : j < pre.length),
      (writer.Write (pretty.String (pre.get ⟨j, hj⟩) ++ sep)
        (written writer ((pre.take j).map (fun c => pretty.String c ++ sep)) w1)).1.2 = none)
    (hk : writer.Write (pretty.String c ++ sep)
        (written writer (pre.map (fun c => pretty.String c ++ sep)) w1) = ((n, some err), w2)) :
    Printed commits writer sep w = (Outcome.panic err, w2) := by
  have hloop := printLoop_accepted writer sep pre (c :: post) w1 hpre
  have hrec : record sep = fun c => pretty.String c ++ sep := rfl
  rw [hrec] at hloop
  simp only [Printed, hS, hloop, printLoop, hk]

theorem printed_write_error_witness :
    (((fun log => (Outcome.ok ([⟨bytes "h1", bytes "m1"⟩] ++
          ⟨bytes "h2", bytes "m2"⟩ :: [⟨bytes "h3", bytes "m3"⟩]), log))
        : Commits (List GoString)) []
      = (Outcome.ok ([⟨bytes "h1", bytes "m1"⟩] ++
          ⟨bytes "h2", bytes "m2"⟩ :: [⟨bytes "h3", bytes "m3"⟩]), [])) ∧
    (secondWriteFails.Write (pretty.String ⟨bytes "h1", bytes "m1"⟩ ++ bytes ";") []).1.2 = none ∧
    (secondWriteFails.Write (pretty.String ⟨bytes "h2", bytes "m2"⟩ ++ bytes ";")
        [bytes "hash: h1 subject=m1 body=;"]).1.2 = some ⟨"short write"⟩ ∧
    Printed (fun log => (Outcome.ok ([⟨bytes "h1", bytes "m1"⟩] ++
          ⟨bytes "h2", bytes "m2"⟩ :: [⟨bytes "h3", bytes "m3"⟩]), log))
        secondWriteFails (bytes ";") []
      = (Outcome.panic ⟨"short write"⟩,
          [bytes "hash: h1 subject=m1 body=;", bytes "hash: h2 subject=m2 body=;"]) :=
  ⟨rfl, rfl, rfl,
   printed_write_error
     (fun log => (Outcome.ok ([⟨bytes "h1", bytes "m1"⟩] ++
          ⟨bytes "h2", bytes "m2"⟩ :: [⟨bytes "h3", bytes "m3"⟩]), log))
     secondWriteFails (bytes ";") [] []
     [bytes "hash: h1 subject=m1 body=;", bytes "hash: h2 subject=m2 body=;"]
     [⟨bytes "h1", bytes "m1"⟩] [⟨bytes "h3", bytes "m3"⟩] ⟨bytes "h2", bytes "m2"⟩ 0
     ⟨"short write"⟩ rfl (by decide) rfl⟩

/-- C9: a call of the enumerator built by `In` panics exactly when resolving the
head fails or opening the log at that head fails; when the head cannot be
resolved the call panics with that error in the world `Head` left, so it
returns no sequence, empty or not, and the log is not opened. -/
theorem In_aborts_iff {W : Type} (repository : Repo W) (w w1 : W) (r : Repository W)
    (hr : repository w = (r, w1)) :
    ((∃ err, (In repository w).1 = Outcome.panic err) ↔
      ((∃ err, (r.Head w1).1 = Except.error err) ∨
       ∃ ref err, (r.Head w1).1 = Except.ok ref ∧
         (r.Log ⟨ref.Hash⟩ (r.Head w1).2).1 = Except.error err)) ∧
    (∀ err, (r.Head w1).1 = Except.error err →
      In repository w = (Outcome.panic err, (r.Head w1).2)) := by
  simp only [In, hr]
  rcases hh : r.Head w1 with ⟨h, w2⟩
  cases h with
  | error e => simp
  | ok ref =>
    rcases hl : r.Log ⟨ref.Hash⟩ w2 with ⟨l, w3⟩
    cases l with
    | error e => simp [hl]
    | ok iter => simp [hl]

theorem In_aborts_iff_witness :
    headless [] = ((headless []).1, ["repository"]) ∧
    ((headless []).1.Head ["repository"]).1 = Except.error ⟨"reference not found"⟩ ∧
    In headless [] = (Outcome.panic ⟨"reference not found"⟩, ["repository", "Head"]) :=
  ⟨rfl, rfl,
   (In_aborts_iff headless [] ["repository"] (headless []).1 rfl).2 ⟨"reference not found"⟩ rfl⟩

/-- C10: when the head resolves, the log opens and the iterator delivers the
raw commits r1, ..., rn and then ends without error, the enumerator built by
`In` returns exactly one `Commit` per raw commit, in the order of the iterator,
with the text form of the identifier as hash and the full message; for n = 0
this is the empty sequence, returned without a panic. -/
theorem In_returns_commits {W : Type} (repository : Repo W) (w w1 w2 w3 : W)
    (r : Repository W) (ref : Reference) (raws : List RawCommit)
    (hr : repository w = (r, w1))
    (hHead : r.Head w1 = (Except.ok ref, w2))
    (hLog : r.Log ⟨ref.Hash⟩ w2 = (Except.ok ⟨raws, none⟩, w3)) :
    In repository w
      = (Outcome.ok (raws.map (fun c => (⟨c.Hash.String, c.Message⟩ : Commit))), w3) := by
  simp only [In, hr, hHead, hLog, CommitIter.ForEach, forEachLoop_append, List.nil_append]

theorem In_returns_commits_witness :
    twoCommits [] = ((twoCommits []).1, ["repository"]) ∧
    (twoCommits []).1.Head ["repository"] = (Except.ok ⟨hashA⟩, ["repository", "Head"]) ∧
    (twoCommits []).1.Log ⟨hashA⟩ ["repository", "Head"]
      = (Except.ok ⟨[⟨hashA, bytes "m1"⟩, ⟨hashB, bytes "t\n\nb"⟩], none⟩,
          ["repository", "Head", "Log"]) ∧
    In twoCommits []
      = (Outcome.ok [⟨bytes "1f1f1f1f1f1f1f1f1f1f1f1f1f1f1f1f1f1f1f1f", bytes "m1"⟩,
                     ⟨bytes "a0a0a0a0a0a0a0a0a0a0a0a0a0a0a0a0a0a0a0a0", bytes "t\n\nb"⟩],
          ["repository", "Head", "Log"]) :=
  ⟨rfl, rfl, rfl,
   In_returns_commits twoCommits [] ["repository"] ["repository", "Head"]
     ["repository", "Head", "Log"] (twoCommits []).1 ⟨hashA⟩
     [⟨hashA, bytes "m1"⟩, ⟨hashB, bytes "t\n\nb"⟩] rfl rfl rfl⟩

/-- Every sequence `In` returns is the image of the delivered raw commits,
whether the iterator ended with `io.EOF` or with an error. -/
theorem In_ok_inv {W : Type} (repository : Repo W) (w w4 : W) (S : List Commit)
    (h : In repository w = (Outcome.ok S, w4)) :
    ∃ raws : List RawCommit, S = raws.map (fun c => (⟨c.Hash.String, c.Message⟩ : Commit)) := by
  rcases hr : repository w with ⟨r, w1⟩
  rcases hh : r.Head w1 with ⟨hd, w2⟩
  cases hd with
  | error e => simp [In, hr, hh] at h
  | ok ref =>
    rcases hl : r.Log ⟨ref.Hash⟩ w2 with ⟨l, w3⟩
    cases l with
    | error e => simp [In, hr, hh, hl] at h
    | ok iter =>
      simp only [In, hr, hh, hl, CommitIter.ForEach, forEachLoop_append, List.nil_append,
        Prod.mk.injEq, Outcome.ok.injEq] at h
      exact ⟨iter.commits, h.1.symm⟩

theorem hexEncode_length (src : List UInt8) : (hexEncode src).length = 2 * src.length := by
  induction src with
  | nil => rfl
  | cons v vs ih =>
    have : hexEncode (v :: vs)
        = hextable.getD (v.toNat / 16) 0 :: hextable.getD (v.toNat % 16) 0 :: hexEncode vs := rfl
    rw [this, List.length_cons, List.length_cons, ih, List.length_cons]
    omega

theorem Hash_String_length (h : Hash) : h.String.length = 40 := by
  rw [Hash.String, hexEncode_length, h.property]

/-- C11: when the iterator delivers r1, ..., rk and then reports an error, the
enumerator built by `In` does not panic: it returns the k commits accumulated
so far, in order, and its result is the one it has when the iterator ends
without error after the same commits. -/
theorem In_ignores_iterator_error {W : Type} (repository : Repo W) (w w1 w2 w3 : W)
    (r : Repository W) (ref : Reference) (raws : List RawCommit) (err : GoError)
    (hr : repository w = (r, w1))
    (hHead : r.Head w1 = (Except.ok ref, w2))
    (hLog : r.Log ⟨ref.Hash⟩ w2 = (Except.ok ⟨raws, some err⟩, w3)) :
    In repository w
        = (Outcome.ok (raws.map (fun c => (⟨c.Hash.String, c.Message⟩ : Commit))), w3) ∧
    In repository w
        = In (fun w0 => (⟨r.Head, fun _ w => (Except.ok ⟨raws, none⟩, (r.Log ⟨ref.Hash⟩ w).2)⟩,
              (repository w0).2)) w := by
  constructor
  · simp only [In, hr, hHead, hLog, CommitIter.ForEach, forEachLoop_append, List.nil_append]
  · simp only [In, hr, hHead, hLog, CommitIter.ForEach, forEachLoop_append, List.nil_append]

theorem In_ignores_iterator_error_witness :
    brokenLog [] = ((brokenLog []).1, ["repository"]) ∧
    (brokenLog []).1.Head ["repository"] = (Except.ok ⟨hashA⟩, ["repository", "Head"]) ∧
    (brokenLog []).1.Log ⟨hashA⟩ ["repository", "Head"]
      = (Except.ok ⟨[⟨hashA, bytes "m1"⟩], some ⟨"object not found"⟩⟩,
          ["repository", "Head", "Log"]) ∧
    In brokenLog []
      = (Outcome.ok [⟨bytes "1f1f1f1f1f1f1f1f1f1f1f1f1f1f1f1f1f1f1f1f", bytes "m1"⟩],
          ["repository", "Head", "Log"]) :=
  ⟨rfl, rfl, rfl,
   (In_ignores_iterator_error brokenLog [] ["repository"] ["repository", "Head"]
     ["repository", "Head", "Log"] (brokenLog []).1 ⟨hashA⟩ [⟨hashA, bytes "m1"⟩]
     ⟨"object not found"⟩ rfl rfl rfl).1⟩

/-- The loop of `Printed` leaves unchanged whatever its writer leaves unchanged. -/
theorem printLoop_preserves {W : Type} (count : W → Nat) (writer : Writer W) (sep : GoString)
    (hw : ∀ p w, count (writer.Write p w).2 = count w) (S : List Commit) (w : W) :
    count (printLoop writer sep S w).2 = count w := by
  induction S generalizing w with
  | nil => rfl
  | cons c cs ih =>
    rw [printLoop]
    have h1 := hw (pretty.String c ++ sep) w
    rcases hwr : writer.Write (pretty.String c ++ sep) w with ⟨⟨n, e⟩, w'⟩
    rw [hwr] at h1
    cases e with
    | none => simp only; rw [ih]; exact h1
    | some err => exact h1

theorem Printed_preserves {W : Type} (count : W → Nat) (commits : Commits W) (writer : Writer W)
    (sep : GoString) (hw : ∀ p w, count (writer.Write p w).2 = count w) (w : W) :
    count (Printed commits writer sep w).2 = count (commits w).2 := by
  simp only [Printed]
  rcases hc : commits w with ⟨o, w1⟩
  cases o with
  | panic e => rfl
  | ok S =>
    simp only
    have := printLoop_preserves count writer sep hw S w1
    rcases hp : printLoop writer sep S w1 with ⟨e, w2⟩
    rw [hp] at this
    cases e <;> exact this

/-- C12: let `count` be a counter in the world that every call of the base
enumerator `e` advances by one and that no writer touches. One call of an
enumerator built by any number of stacked `Printed` layers over `e` advances
the counter by exactly one: each layer calls the enumerator it wraps once, so
`e` is called exactly once. -/
theorem stacked_invokes_once {W : Type} (count : W → Nat) (e : Commits W)
    (layers : List (Writer W × GoString))
    (he : ∀ w, count (e w).2 = count w + 1)
    (hw : ∀ l ∈ layers, ∀ p w, count (l.1.Write p w).2 = count w) (w : W) :
    count (stacked e layers w).2 = count w + 1 ∧
    ∀ writer sep, (∀ p w, count (writer.Write p w).2 = count w) →
      count (Printed e writer sep w).2 = count w + 1 := by
  constructor
  · induction layers generalizing w with
    | nil => exact he w
    | cons l ls ih =>
      obtain ⟨writer, sep⟩ := l
      rw [stacked, Printed_preserves count _ writer sep (hw (writer, sep) (List.mem_cons_self _ _))]
      exact ih (fun l hl => hw l (List.mem_cons_of_mem _ hl)) w
  · intro writer sep hwr
    rw [Printed_preserves count e writer sep hwr]
    exact he w

theorem stacked_invokes_once_witness :
    (∀ w, List.count "repository" (In twoCommits w).2 = List.count "repository" w + 1) ∧
    (∀ l ∈ [(callWriter, bytes ";"), (callWriter, bytes "\n")],
      ∀ p w, List.count "repository" (l.1.Write p w).2 = List.count "repository" w) ∧
    List.count "repository"
      (stacked (In twoCommits) [(callWriter, bytes ";"), (callWriter, bytes "\n")] []).2
      = 0 + 1 :=
  ⟨fun w => by simp [In, twoCommits, List.count_append],
   fun l hl p w => by
     simp only [List.mem_cons, List.mem_singleton, List.not_mem_nil, or_false] at hl
     rcases hl with rfl | rfl <;> simp [callWriter, List.count_append],
   (stacked_invokes_once (List.count "repository") (In twoCommits)
     [(callWriter, bytes ";"), (callWriter, bytes "\n")]
     (fun w => by simp [In, twoCommits, List.count_append])
     (fun l hl p w => by
       simp only [List.mem_cons, List.mem_singleton, List.not_mem_nil, or_false] at hl
       rcases hl with rfl | rfl <;> simp [callWriter, List.count_append])
     []).1⟩

/-- C14: every commit of a sequence returned by the enumerator built by `In`
has a non-empty hash: the text form of a raw commit identifier is its forty
hexadecimal digits, never the empty string. -/
theorem In_hash_nonempty {W : Type} (repository : Repo W) (w w4 : W) (S : List Commit)
    (h : In repository w = (Outcome.ok S, w4)) :
    (∀ c ∈ S, c.Hash ≠ []) ∧ ∀ id : Hash, id.String ≠ [] := by
  have hid : ∀ id : Hash, id.String ≠ [] := by
    intro id hnil
    have := Hash_String_length id
    rw [hnil] at this
    simp at this
  refine ⟨?_, hid⟩
  obtain ⟨raws, rfl⟩ := In_ok_inv repository w w4 S h
  intro c hc
  obtain ⟨raw, _, rfl⟩ := List.mem_map.1 hc
  exact hid raw.Hash

theorem In_hash_nonempty_witness :
    In twoCommits []
      = (Outcome.ok [⟨bytes "1f1f1f1f1f1f1f1f1f1f1f1f1f1f1f1f1f1f1f1f", bytes "m1"⟩,
                     ⟨bytes "a0a0a0a0a0a0a0a0a0a0a0a0a0a0a0a0a0a0a0a0", bytes "t\n\nb"⟩],
          ["repository", "Head", "Log"]) ∧
    ((∀ c ∈ [(⟨bytes "1f1f1f1f1f1f1f1f1f1f1f1f1f1f1f1f1f1f1f1f", bytes "m1"⟩ : Commit),
             ⟨bytes "a0a0a0a0a0a0a0a0a0a0a0a0a0a0a0a0a0a0a0a0", bytes "t\n\nb"⟩], c.Hash ≠ []) ∧
     ∀ id : Hash, id.String ≠ []) :=
  ⟨rfl, In_hash_nonempty twoCommits [] ["repository", "Head", "Log"] _ rfl⟩

/-- C15: two calls of the enumerator built by `In`, made in any two worlds
(the second may come after the first) in which the repository answers alike,
the same result of `Head` and the same result of `Log` at that head, end
alike: both return the same sequence, equal in length and in hash and message
at every position, or both panic with the same error. -/
theorem In_deterministic {W : Type} (repository : Repo W) (wa wa1 wb wb1 : W)
    (ra rb : Repository W)
    (ha : repository wa = (ra, wa1)) (hb : repository wb = (rb, wb1))
    (hHead : (ra.Head wa1).1 = (rb.Head wb1).1)
    (hLog : ∀ o, (ra.Log o (ra.Head wa1).2).1 = (rb.Log o (rb.Head wb1).2).1) :
    (In repository wa).1 = (In repository wb).1 := by
  rcases hha : ra.Head wa1 with ⟨hda, wa2⟩
  rcases hhb : rb.Head wb1 with ⟨hdb, wb2⟩
  rw [hha, hhb] at hHead hLog
  simp only at hHead hLog
  subst hHead
  cases hda with
  | error e => simp [In, ha, hb, hha, hhb]
  | ok ref =>
    have hL := hLog ⟨ref.Hash⟩
    rcases hla : ra.Log ⟨ref.Hash⟩ wa2 with ⟨la, wa3⟩
    rcases hlb : rb.Log ⟨ref.Hash⟩ wb2 with ⟨lb, wb3⟩
    rw [hla, hlb] at hL
    simp only at hL
    subst hL
    cases la with
    | error e => simp [In, ha, hb, hha, hhb, hla, hlb]
    | ok iter => simp [In, ha, hb, hha, hhb, hla, hlb]

theorem In_deterministic_witness :
    twoCommits [] = ((twoCommits []).1, ["repository"]) ∧
    twoCommits (In twoCommits []).2
      = ((twoCommits []).1, ["repository", "Head", "Log", "repository"]) ∧
    (In twoCommits []).1 = (In twoCommits (In twoCommits []).2).1 :=
  ⟨rfl, rfl,
   In_deterministic twoCommits [] ["repository"] (In twoCommits []).2
     ["repository", "Head", "Log", "repository"] (twoCommits []).1 (twoCommits []).1
     rfl rfl rfl (fun _ => rfl)⟩

/-- C16: the rendering is lossy: two commits that differ in hash and in
message have the same rendering, so `pretty.String` is not injective. -/
theorem rendering_not_injective :
    (∃ c1 c2 : Commit, (c1.hash ≠ c2.hash ∨ c1.message ≠ c2.message) ∧
      pretty.String c1 = pretty.String c2) ∧
    ¬ Function.Injective pretty.String := by
  have hne : (⟨bytes "a subject=b", bytes "c"⟩ : Commit) ≠ ⟨bytes "a", bytes "b subject=c"⟩ := by
    decide
  have heq : pretty.String ⟨bytes "a subject=b", bytes "c"⟩
      = pretty.String ⟨bytes "a", bytes "b subject=c"⟩ := by decide
  exact ⟨⟨⟨bytes "a subject=b", bytes "c"⟩, ⟨bytes "a", bytes "b subject=c"⟩,
      Or.inl (by decide), heq⟩, fun hinj => hne (hinj heq)⟩

/-- C19: when the wrapped enumerator panics, the enumerator built by `Printed`
panics with the same error and leaves the world as the wrapped enumerator left
it: no write is made. When the wrapped enumerator returns, every write is made
in the world it left, that is after it returned its sequence. -/
theorem printed_propagates_panic {W : Type} (commits : Commits W) (writer : Writer W)
    (sep : GoString) (w w1 : W) (err : GoError)
    (h : commits w = (Outcome.panic err, w1)) :
    Printed commits writer sep w = (Outcome.panic err, w1) ∧
    ∀ (commits2 : Commits W) (S : List Commit) (w2 : W), commits2 w = (Outcome.ok S, w2) →
      (Printed commits2 writer sep w).2 = (printLoop writer sep S w2).2 := by
  constructor
  · simp only [Printed, h]
  · intro commits2 S w2 h2
    simp only [Printed, h2]
    rcases printLoop writer sep S w2 with ⟨e, w3⟩
    cases e <;> rfl

theorem printed_propagates_panic_witness :
    In headless [] = (Outcome.panic ⟨"reference not found"⟩, ["repository", "Head"]) ∧
    Printed (In headless) callWriter (bytes ";") []
      = (Outcome.panic ⟨"reference not found"⟩, ["repository", "Head"]) :=
  ⟨rfl,
   (printed_propagates_panic (In headless) callWriter (bytes ";") [] ["repository", "Head"]
     ⟨"reference not found"⟩ rfl).1⟩

/-- The subject followed by the body is the paragraphs of the message put
together with nothing in between. -/
theorem Subject_append_Body (c : Commit) :
    c.Subject ++ c.Body = (Split c.message sepNN).flatten := by
  have hne := Split_ne_nil sepNN_ne_nil c.message
  simp only [Commit.Subject, Commit.Body]
  cases hs : Split c.message sepNN with
  | nil => exact absurd hs hne
  | cons p ps =>
    cases ps with
    | nil => simp
    | cons q qs => simp [Join_empty_sep]

/-- The paragraphs and the separators between them make up the message. -/
theorem Split_lengths (s : GoString) :
    (Split s sepNN).flatten.length + 2 * ((Split s sepNN).length - 1) = s.length := by
  generalize hn : s.length = n
  induction n using Nat.strong_induction_on generalizing s with
  | _ n ih =>
    subst hn
    rw [Split_unfold sepNN_ne_nil]
    cases hi : Index s sepNN with
    | none => simp
    | some m =>
      have hlt := length_drop_lt sepNN_ne_nil hi
      have hm := Index_some_length hi
      have hrec := ih _ hlt (s.drop (m + sepNN.length)) rfl
      have hpos : 0 < (Split (s.drop (m + sepNN.length)) sepNN).length :=
        List.length_pos.2 (Split_ne_nil sepNN_ne_nil _)
      have hl : (s.drop (m + sepNN.length)).length = s.length - (m + 2) := by
        rw [List.length_drop, sepNN_length]
      rw [sepNN_length] at hm
      show (s.take m :: Split (s.drop (m + sepNN.length)) sepNN).flatten.length
        + 2 * ((s.take m :: Split (s.drop (m + sepNN.length)) sepNN).length - 1) = s.length
      obtain ⟨t, ht⟩ : ∃ t, t = s.drop (m + sepNN.length) := ⟨_, rfl⟩
      rw [← ht] at hrec hpos hl ⊢
      simp only [List.flatten_cons, List.length_append, List.length_take, List.length_cons,
        Nat.add_sub_cancel]
      rw [Nat.min_eq_left (by omega)]
      omega

/-- `Split` returns one paragraph more than `Count` counts separators. -/
theorem Split_length (s : GoString) : (Split s sepNN).length = Count s sepNN + 1 := by
  generalize hn : s.length = n
  induction n using Nat.strong_induction_on generalizing s with
  | _ n ih =>
    subst hn
    rw [Split_unfold sepNN_ne_nil, Count_unfold sepNN_ne_nil]
    cases hi : Index s sepNN with
    | none => rfl
    | some m =>
      have hlt := length_drop_lt sepNN_ne_nil hi
      have hrec := ih _ hlt (s.drop (m + sepNN.length)) rfl
      show (Split (s.drop (m + sepNN.length)) sepNN).length + 1
        = 1 + Count (s.drop (m + sepNN.length)) sepNN + 1
      omega

/-- A message has one paragraph exactly when it contains no separator. -/
theorem Split_length_eq_one_iff (s : GoString) :
    (Split s sepNN).length = 1 ↔ ¬ sepNN <:+: s := by
  rw [← Index_eq_none_iff, Split_unfold sepNN_ne_nil]
  cases hi : Index s sepNN with
  | none => simp
  | some m =>
    have hpos : 0 < (Split (s.drop (m + sepNN.length)) sepNN).length :=
      List.length_pos.2 (Split_ne_nil sepNN_ne_nil _)
    simp only [List.length_cons]
    constructor
    · intro h; omega
    · intro h; cases h

/-- C18: subject and body together drop only separator bytes: their lengths
and two bytes for each of the p - 1 separators between the p paragraphs of the
message add up to the length of the message, p being at least 1; so the two
lengths add up to the length of the message exactly when the message contains
no separator. -/
theorem subject_body_lengths (c : Commit) :
    c.Subject.length + c.Body.length + 2 * ((Split c.message sepNN).length - 1)
        = c.message.length ∧
    1 ≤ (Split c.message sepNN).length ∧
    (c.Subject.length + c.Body.length = c.message.length ↔ ¬ sepNN <:+: c.message) := by
  have hlen := Split_lengths c.message
  rw [← Subject_append_Body, List.length_append] at hlen
  have hpos : 0 < (Split c.message sepNN).length :=
    List.length_pos.2 (Split_ne_nil sepNN_ne_nil _)
  refine ⟨hlen, hpos, ?_⟩
  rw [← Split_length_eq_one_iff]
  constructor
  · intro h; omega
  · intro h; rw [h] at hlen; omega

/-- C13: the subject, a separator and the body make up the message exactly
when splitting the message gives two paragraphs, that is when `Count` finds one
separator in it; with two or more separators they do not. -/
theorem subject_sep_body_iff (c : Commit) :
    (c.Subject ++ sepNN ++ c.Body = c.message ↔ (Split c.message sepNN).length = 2) ∧
    ((Split c.message sepNN).length = 2 ↔ Count c.message sepNN = 1) ∧
    (2 ≤ Count c.message sepNN → c.Subject ++ sepNN ++ c.Body ≠ c.message) := by
  have hlen := Split_lengths c.message
  rw [← Subject_append_Body, List.length_append] at hlen
  have hcount := Split_length c.message
  have hiff : c.Subject ++ sepNN ++ c.Body = c.message ↔ (Split c.message sepNN).length = 2 := by
    constructor
    · intro h
      have h2 := congrArg List.length h
      rw [List.length_append, List.length_append, sepNN_length] at h2
      omega
    · intro h
      rw [Subject_eq, Body_eq]
      rw [Split_unfold sepNN_ne_nil] at h
      cases hi : Index c.message sepNN with
      | none => rw [hi] at h; simp at h
      | some m =>
        rw [hi] at h
        simp only [List.length_cons, Nat.add_right_cancel_iff] at h
        have h1 : (Split (c.message.drop (m + sepNN.length)) sepNN).length = 1 := by omega
        have hno := (Split_length_eq_one_iff _).1 h1
        have hS : Split (c.message.drop (m + sepNN.length)) sepNN
            = [c.message.drop (m + sepNN.length)] := by
          rw [Split_unfold sepNN_ne_nil, (Index_eq_none_iff _ _).2 hno]
        rw [sepNN_length] at hS
        simp only [hS, List.flatten_cons, List.flatten_nil, List.append_nil]
        have := Index_some_split hi
        rw [sepNN_length] at this
        exact this.symm
  refine ⟨hiff, ?_, ?_⟩
  · rw [hcount]; omega
  · intro h2 heq
    have := hiff.1 heq
    omega

/-- The text before the first separator contains no separator. -/
theorem take_Index_no_sep {s : GoString} {m : Nat} (hi : Index s sepNN = some m) :
    ¬ sepNN <:+: s.take m := by
  rintro ⟨a, r, har⟩
  have hlen := congrArg List.length har
  rw [List.length_append, List.length_append, sepNN_length, List.length_take] at hlen
  refine (Index_some hi).2 a.length (by omega) ⟨r ++ s.drop m, ?_⟩
  have hs : a ++ (sepNN ++ (r ++ s.drop m)) = s := by
    rw [← List.append_assoc, ← List.append_assoc, har, List.take_append_drop]
  conv => rhs; rw [← hs]
  rw [List.drop_left]

/-- The text before the first separator does not end with a newline: the
separator would start one byte earlier. -/
theorem take_Index_no_newline_end {s : GoString} {m : Nat} (hi : Index s sepNN = some m) :
    (s.take m).getLast? ≠ some 10 := by
  intro hlast
  obtain ⟨⟨r, hr⟩, hmin⟩ := Index_some hi
  have hm := Index_some_length hi
  have hq : (s.take m).dropLast ++ [10] = s.take m :=
    List.dropLast_append_getLast? 10 (by simp [hlast])
  have hqlen := congrArg List.length hq
  rw [List.length_append, List.length_take, List.length_singleton,
    Nat.min_eq_left (by omega)] at hqlen
  obtain ⟨q, hqdef⟩ : ∃ q, q = (s.take m).dropLast := ⟨_, rfl⟩
  rw [← hqdef] at hq hqlen
  refine hmin q.length (by omega) ⟨[10] ++ r, ?_⟩
  have hs : q ++ (sepNN ++ ([10] ++ r)) = s := by
    have h1 : sepNN ++ ([10] ++ r) = [10] ++ (sepNN ++ r) := by rw [sepNN_eq]; rfl
    rw [h1, hr, ← List.append_assoc, hq, List.take_append_drop]
  rw [← hs, List.drop_left]

/-- No paragraph contains a separator, and no paragraph but the last ends with
a newline. -/
theorem Split_parts (s : GoString) :
    (∀ p ∈ Split s sepNN, ¬ sepNN <:+: p) ∧
    ∀ p ∈ (Split s sepNN).dropLast, p.getLast? ≠ some 10 := by
  generalize hn : s.length = n
  induction n using Nat.strong_induction_on generalizing s with
  | _ n ih =>
    subst hn
    rw [Split_unfold sepNN_ne_nil]
    cases hi : Index s sepNN with
    | none =>
      refine ⟨?_, ?_⟩
      · intro p hp
        have : p = s := by simpa using hp
        rw [this]
        exact (Index_eq_none_iff _ _).1 hi
      · intro p hp
        simp at hp
    | some m =>
      have hlt := length_drop_lt sepNN_ne_nil hi
      obtain ⟨h1, h2⟩ := ih _ hlt (s.drop (m + sepNN.length)) rfl
      have hne := Split_ne_nil sepNN_ne_nil (s.drop (m + sepNN.length))
      refine ⟨?_, ?_⟩
      · intro p hp
        rcases List.mem_cons.1 hp with rfl | hp
        · exact take_Index_no_sep hi
        · exact h1 p hp
      · intro p hp
        change p ∈ (s.take m :: Split (s.drop (m + sepNN.length)) sepNN).dropLast at hp
        rw [List.dropLast_cons_of_ne_nil hne] at hp
        rcases List.mem_cons.1 hp with rfl | hp
        · exact take_Index_no_newline_end hi
        · exact h2 p hp

/-- Putting a text without separator after a text without separator and without
final newline makes no separator. -/
theorem no_sep_append (p q : GoString) (h1 : ¬ sepNN <:+: p) (h2 : p.getLast? ≠ some 10)
    (h3 : ¬ sepNN <:+: q) : ¬ sepNN <:+: p ++ q := by
  induction p with
  | nil => simpa using h3
  | cons x p ih =>
    have h1' : ¬ sepNN <:+: p := fun h => h1 (h.trans (List.suffix_cons x p).isInfix)
    have h2' : p.getLast? ≠ some 10 := by
      cases p with
      | nil => simp
      | cons b q => simpa [List.getLast?_cons_cons] using h2
    intro hin
    obtain ⟨i, hi⟩ := (occurs_iff_drop _ _).1 hin
    cases i with
    | zero =>
      rw [sepNN_eq] at hi h1
      rw [List.drop_zero, List.cons_append, List.cons_prefix_cons] at hi
      obtain ⟨hx, hrest⟩ := hi
      cases p with
      | nil =>
        apply h2
        simp [← hx]
      | cons y p2 =>
        rw [List.cons_append, List.cons_prefix_cons] at hrest
        apply h1
        refine ⟨[], p2, ?_⟩
        simp [← hx, ← hrest.1]
    | succ j =>
      exact ih h1' h2' ((occurs_iff_drop _ _).2 ⟨j, by simpa using hi⟩)

/-- Paragraphs without separator, none but the last ending with a newline, make
no separator when put together with nothing in between. -/
theorem flatten_no_sep (ps : List GoString) (h1 : ∀ p ∈ ps, ¬ sepNN <:+: p)
    (h2 : ∀ p ∈ ps.dropLast, p.getLast? ≠ some 10) : ¬ sepNN <:+: ps.flatten := by
  induction ps with
  | nil => rw [sepNN_eq]; decide
  | cons p ps ih =>
    cases ps with
    | nil => simpa using h1 p (List.mem_cons_self _ _)
    | cons q qs =>
      rw [List.flatten_cons]
      refine no_sep_append p _ (h1 p (List.mem_cons_self _ _))
        (h2 p (by simp [List.dropLast])) (ih ?_ ?_)
      · intro r hr
        exact h1 r (List.mem_cons_of_mem _ hr)
      · intro r hr
        exact h2 r (by
          rw [List.dropLast_cons₂]
          exact List.mem_cons_of_mem _ hr)

/-- C17: for every commit the body contains no occurrence of the separator:
no paragraph of the message contains one, and no paragraph that is followed by
a separator ends with a newline, so putting the paragraphs after the first
together makes none. -/
theorem body_no_separator (c : Commit) :
    ¬ sepNN <:+: c.Body ∧
    ∀ p ∈ (Split c.message sepNN).dropLast, p.getLast? ≠ some 10 := by
  refine ⟨?_, (Split_parts c.message).2⟩
  cases hi : Index c.message sepNN with
  | none =>
    rw [Body_eq, hi]
    show ¬ sepNN <:+: ([] : GoString)
    rw [sepNN_eq]
    decide
  | some m =>
    obtain ⟨h1, h2⟩ := Split_parts (c.message.drop (m + 2))
    rw [Body_eq, hi]
    exact flatten_no_sep _ h1 h2

/-- C20: a run of three newlines is split at its first two bytes: for texts s
and t without newline, the commit with message s ++ "\n\n\n" ++ t has subject
s and body "\n" ++ t, the third newline being the first byte of the body. -/
theorem three_newlines (hash s t : GoString) (hs : (10 : UInt8) ∉ s) (ht : (10 : UInt8) ∉ t) :
    (Commit.mk hash (s ++ bytes "\n\n\n" ++ t)).Subject = s ∧
    (Commit.mk hash (s ++ bytes "\n\n\n" ++ t)).Body = bytes "\n" ++ t := by
  have hno : ∀ u : GoString, (10 : UInt8) ∉ u → ¬ sepNN <:+: (10 : UInt8) :: u := by
    intro u hu hin
    rw [sepNN_eq] at hin
    obtain ⟨a, r, har⟩ := hin
    apply hu
    have hmem : (10 : UInt8) ∈ ((10 : UInt8) :: u).tail := by
      cases a with
      | nil =>
        simp only [List.nil_append, List.cons_append, List.cons.injEq, true_and] at har
        rw [List.tail_cons, ← har]
        exact List.mem_cons_self _ _
      | cons x a2 =>
        simp only [List.cons_append, List.cons.injEq] at har
        rw [List.tail_cons, ← har.2]
        simp
    simpa using hmem
  have hs1 : ¬ sepNN <:+: s := by
    intro hin
    apply hs
    obtain ⟨a, r, har⟩ := hin
    rw [← har, sepNN_eq]
    simp
  have hs2 : s.getLast? ≠ some 10 := by
    intro h
    exact hs (List.mem_of_getLast?_eq_some h)
  have hmsg : s ++ bytes "\n\n\n" ++ t = List.intercalate sepNN [s, (10 : UInt8) :: t] := by
    have h3 : bytes "\n\n\n" = sepNN ++ [10] := by decide
    rw [h3]
    simp [List.intercalate, List.intersperse]
  have hS := Split_paragraphs s [(10 : UInt8) :: t]
    (by
      intro p hp
      simp only [List.mem_cons, List.mem_singleton, List.not_mem_nil, or_false] at hp
      rcases hp with rfl | rfl
      · exact hs1
      · exact hno t ht)
    (by
      intro p hp
      have : p = s := by simpa [List.dropLast] using hp
      rw [this]
      exact hs2)
  rw [← hmsg] at hS
  constructor
  · rw [Commit.Subject]
    simp only
    rw [hS]
    rfl
  · simp only [Commit.Body]
    rw [hS]
    simp [Join, bytes]
    decide

theorem three_newlines_witness :
    ((10 : UInt8) ∉ bytes "Fix typo" ∧ (10 : UInt8) ∉ bytes "details") ∧
    (Commit.mk (bytes "abc123") (bytes "Fix typo\n\n\ndetails")).Subject = bytes "Fix typo" ∧
    (Commit.mk (bytes "abc123") (bytes "Fix typo\n\n\ndetails")).Body = bytes "\ndetails" :=
  ⟨⟨by decide, by decide⟩,
   three_newlines (bytes "abc123") (bytes "Fix typo") (bytes "details") (by decide) (by decide)⟩

end commits
